import Mathlib

/-!
Shallow embedding of the `component-map` crate: a keyed component lifecycle
registry (`ComponentManager` / `ComponentMap`) storing, per key, the pair of
construction arguments and the component built from them by a user-supplied
factory, with infallible/fallible and synchronous/asynchronous variants of
construction (`init`), bulk re-creation (`reinit_all`), targeted re-creation
(`reinit`) and insert-or-replace (`update`).

The Rust `HashMap<Key, WithArgs<Args, Comp>>` is embedded as an association
list `List (Key × WithArgs Args Comp)`; `get`/`get_mut` find the first entry
with the key, `insert` replaces the value of the first matching entry in place
(keeping the old key, as `HashMap::insert` does) or appends a fresh entry, and
iteration order is the list order.  Factories are pure Lean functions
(`Args → Comp`, `Key → Args → Comp`, or `Args → Except Error Comp`); the
asynchronous variants are embedded by their two-phase structure — all factory
invocations are evaluated against the pre-call state (the `join_all` fan-out,
which returns results in input order), and the map is reconciled afterwards in
input order.  Variants instrumented with an invocation log (suffix `L`) record
the argument of every factory invocation, in invocation order, to state the
claims about how often and on what data the factory is called.
-/

namespace ComponentMap

/-- `WithArgs<Args, Comp>`: a stored component together with the construction
arguments it was built from (src/lib.rs). -/
structure WithArgs (Args Comp : Type) where
  component : Comp
  args : Args
deriving Repr, DecidableEq

/-- `Keyed<Key, Value>`: a key paired with a per-key result value, used to
report outcomes of bulk operations (src/lib.rs). -/
structure Keyed (Key Value : Type) where
  key : Key
  value : Value
deriving Repr, DecidableEq

/-- The registry's backing store `HashMap<Key, WithArgs<Args, Comp>>`,
embedded as an association list. -/
abbrev CMap (Key Args Comp : Type) := List (Key × WithArgs Args Comp)

variable {Key Args Comp Error : Type}

/-- `HashMap::get` / the lookup part of `get_mut`: first entry whose key
matches. -/
def hmGet [DecidableEq Key] : CMap Key Args Comp → Key → Option (WithArgs Args Comp)
  | [], _ => none
  | (k', wa) :: rest, k => if k' = k then some wa else hmGet rest k

/-- `HashMap::insert`: replace the value of the existing entry (keeping the
stored key) and return the previous value, or append a new entry. -/
def hmInsert [DecidableEq Key] :
    CMap Key Args Comp → Key → WithArgs Args Comp →
    CMap Key Args Comp × Option (WithArgs Args Comp)
  | [], k, v => ([(k, v)], none)
  | (k', wa) :: rest, k, v =>
    if k' = k then ((k', v) :: rest, some wa)
    else ((k', wa) :: (hmInsert rest k v).1, (hmInsert rest k v).2)

/-- `get_mut` followed by `mem::replace(&mut entry.component, c)`: overwrite
the component field of the entry for `k`, leaving its args untouched. -/
def hmSetComp [DecidableEq Key] : CMap Key Args Comp → Key → Comp → CMap Key Args Comp
  | [], _, _ => []
  | (k', wa) :: rest, k, c =>
    if k' = k then (k', WithArgs.mk c wa.args) :: rest
    else (k', wa) :: hmSetComp rest k c

/-- `collect()` of an iterator of pairs into a `HashMap`: left-to-right
inserts, so for duplicate keys the last occurrence wins. -/
def hmCollect [DecidableEq Key] (ps : List (Key × WithArgs Args Comp)) : CMap Key Args Comp :=
  ps.foldl (fun m p => (hmInsert m p.1 p.2).1) []

/-! ### Synchronous infallible operations (src/sync_infallible.rs) -/

/-- `ComponentManager::init`: invoke the factory on each pair's args and
collect the `(key, WithArgs)` pairs into the map. -/
def init [DecidableEq Key] (f : Args → Comp) (entries : List (Key × Args)) :
    CMap Key Args Comp :=
  hmCollect (entries.map (fun p => (p.1, WithArgs.mk (f p.2) p.2)))

/-- `ComponentManager::reinit_all`: for every entry, re-invoke the factory on
the stored args, store the new component, and report the previous one. -/
def reinitAll (f : Args → Comp) :
    CMap Key Args Comp → CMap Key Args Comp × List (Keyed Key Comp)
  | [] => ([], [])
  | (k, wa) :: rest =>
    ((k, WithArgs.mk (f wa.args) wa.args) :: (reinitAll f rest).1,
     Keyed.mk k wa.component :: (reinitAll f rest).2)

/-- `ComponentManager::reinit`: for each requested key in order, if present
re-invoke the factory on the stored args, replace the component and report the
previous one; if absent, report `none`. -/
def reinit [DecidableEq Key] (f : Args → Comp) :
    List Key → CMap Key Args Comp → CMap Key Args Comp × List (Keyed Key (Option Comp))
  | [], m => (m, [])
  | k :: ks, m =>
    match hmGet m k with
    | some wa =>
      ((reinit f ks (hmSetComp m k (f wa.args))).1,
       Keyed.mk k (some wa.component) :: (reinit f ks (hmSetComp m k (f wa.args))).2)
    | none =>
      ((reinit f ks m).1, Keyed.mk k none :: (reinit f ks m).2)

/-- `ComponentManager::update`: for each `(key, args)` pair in order, build the
new component from the supplied args, insert it, and report the evicted
`WithArgs` pair (or `none` for a fresh key). -/
def update [DecidableEq Key] (f : Args → Comp) :
    List (Key × Args) → CMap Key Args Comp →
    CMap Key Args Comp × List (Keyed Key (Option (WithArgs Args Comp)))
  | [], m => (m, [])
  | (k, a) :: us, m =>
    ((update f us (hmInsert m k (WithArgs.mk (f a) a)).1).1,
     Keyed.mk k (hmInsert m k (WithArgs.mk (f a) a)).2 ::
       (update f us (hmInsert m k (WithArgs.mk (f a) a)).1).2)

/-! ### Synchronous fallible operations (src/sync_fallible.rs) -/

/-- The loop inside `ComponentManager::try_init`'s
`collect::<Result<HashMap, _>>()`: build the map entry by entry,
short-circuiting at the first factory error. -/
def tryInitGo [DecidableEq Key] (f : Args → Except Error Comp) :
    List (Key × Args) → CMap Key Args Comp → Except Error (CMap Key Args Comp)
  | [], m => .ok m
  | (k, a) :: rest, m =>
    match f a with
    | .error e => .error e
    | .ok c => tryInitGo f rest (hmInsert m k (WithArgs.mk c a)).1

/-- `ComponentManager::try_init`. -/
def tryInit [DecidableEq Key] (f : Args → Except Error Comp)
    (entries : List (Key × Args)) : Except Error (CMap Key Args Comp) :=
  tryInitGo f entries []

/-- `ComponentManager::try_reinit_all`: per entry, on factory success replace
the component and report the previous one; on failure leave the entry
untouched and report the error. -/
def tryReinitAll (f : Args → Except Error Comp) :
    CMap Key Args Comp → CMap Key Args Comp × List (Keyed Key (Except Error Comp))
  | [] => ([], [])
  | (k, wa) :: rest =>
    match f wa.args with
    | .ok next =>
      ((k, WithArgs.mk next wa.args) :: (tryReinitAll f rest).1,
       Keyed.mk k (.ok wa.component) :: (tryReinitAll f rest).2)
    | .error e =>
      ((k, wa) :: (tryReinitAll f rest).1,
       Keyed.mk k (.error e) :: (tryReinitAll f rest).2)

/-- `ComponentManager::try_reinit`: per requested key, absent keys report
`none`; present keys report `some (.ok prev)` and are replaced on success, or
`some (.error e)` with the entry untouched on failure. -/
def tryReinit [DecidableEq Key] (f : Args → Except Error Comp) :
    List Key → CMap Key Args Comp →
    CMap Key Args Comp × List (Keyed Key (Option (Except Error Comp)))
  | [], m => (m, [])
  | k :: ks, m =>
    match hmGet m k with
    | some wa =>
      match f wa.args with
      | .ok next =>
        ((tryReinit f ks (hmSetComp m k next)).1,
         Keyed.mk k (some (.ok wa.component)) :: (tryReinit f ks (hmSetComp m k next)).2)
      | .error e =>
        ((tryReinit f ks m).1,
         Keyed.mk k (some (.error e)) :: (tryReinit f ks m).2)
    | none =>
      ((tryReinit f ks m).1, Keyed.mk k none :: (tryReinit f ks m).2)

/-- `ComponentManager::try_update`: per `(key, args)` pair, on factory success
insert the new pair and report the evicted pair wrapped in `.ok` (or `none`
for a fresh key, after `Result::transpose`); on failure mutate nothing and
report the error. -/
def tryUpdate [DecidableEq Key] (f : Args → Except Error Comp) :
    List (Key × Args) → CMap Key Args Comp →
    CMap Key Args Comp × List (Keyed Key (Option (Except Error (WithArgs Args Comp))))
  | [], m => (m, [])
  | (k, a) :: us, m =>
    match f a with
    | .ok c =>
      ((tryUpdate f us (hmInsert m k (WithArgs.mk c a)).1).1,
       Keyed.mk k ((hmInsert m k (WithArgs.mk c a)).2.map Except.ok) ::
         (tryUpdate f us (hmInsert m k (WithArgs.mk c a)).1).2)
    | .error e =>
      ((tryUpdate f us m).1,
       Keyed.mk k (some (.error e)) :: (tryUpdate f us m).2)

/-! ### Asynchronous infallible operations (src/async_infallible.rs)

The factory here is key-aware (`AsyncFn(&Key, &Args) -> Comp`).  `join_all`
evaluates every future and yields the results in input order; a second pass
reconciles them with the map. -/

/-- `ComponentMap::init_async`: fan out one factory invocation per input pair,
then collect the completed `(key, WithArgs)` pairs into the map. -/
def initAsync [DecidableEq Key] (f : Key → Args → Comp) (entries : List (Key × Args)) :
    CMap Key Args Comp :=
  hmCollect (entries.map (fun p => (p.1, WithArgs.mk (f p.1 p.2) p.2)))

/-- `ComponentMap::reinit_all_async`: fan out one invocation per entry on its
stored args, then zip the completed components back over the entries,
replacing each component and reporting the previous one. -/
def reinitAllAsync (f : Key → Args → Comp) (m : CMap Key Args Comp) :
    CMap Key Args Comp × List (Keyed Key Comp) :=
  let next := m.map (fun p => f p.1 p.2.args)
  ((m.zip next).map (fun q => (q.1.1, WithArgs.mk q.2 q.1.2.args)),
   (m.zip next).map (fun q => Keyed.mk q.1.1 q.1.2.component))

/-- Reconciliation pass of `ComponentMap::reinit_async`: for each completed
`Keyed(key, Option next)`, replace the component when the key resolved and is
still present, reporting the previous component. -/
def reinitAsyncApply [DecidableEq Key] :
    List (Keyed Key (Option Comp)) → CMap Key Args Comp →
    CMap Key Args Comp × List (Keyed Key (Option Comp))
  | [], m => (m, [])
  | Keyed.mk k next :: rest, m =>
    match next with
    | some n =>
      match hmGet m k with
      | some wa =>
        ((reinitAsyncApply rest (hmSetComp m k n)).1,
         Keyed.mk k (some wa.component) :: (reinitAsyncApply rest (hmSetComp m k n)).2)
      | none =>
        ((reinitAsyncApply rest m).1, Keyed.mk k none :: (reinitAsyncApply rest m).2)
    | none =>
      ((reinitAsyncApply rest m).1, Keyed.mk k none :: (reinitAsyncApply rest m).2)

/-- `ComponentMap::reinit_async`: fan out one invocation per present key on
the args stored before the call, then reconcile in input order. -/
def reinitAsync [DecidableEq Key] (f : Key → Args → Comp) (keys : List Key)
    (m : CMap Key Args Comp) : CMap Key Args Comp × List (Keyed Key (Option Comp)) :=
  reinitAsyncApply (keys.map (fun k => Keyed.mk k ((hmGet m k).map (fun wa => f k wa.args)))) m

/-- Reconciliation pass of `ComponentMap::update_async`: insert each completed
pair in input order, reporting each evicted pair. -/
def updateAsyncApply [DecidableEq Key] :
    List (Key × WithArgs Args Comp) → CMap Key Args Comp →
    CMap Key Args Comp × List (Keyed Key (Option (WithArgs Args Comp)))
  | [], m => (m, [])
  | (k, wa) :: rest, m =>
    ((updateAsyncApply rest (hmInsert m k wa).1).1,
     Keyed.mk k (hmInsert m k wa).2 :: (updateAsyncApply rest (hmInsert m k wa).1).2)

/-- `ComponentMap::update_async`: fan out one invocation per input pair on the
supplied args, then insert the completed pairs in input order. -/
def updateAsync [DecidableEq Key] (f : Key → Args → Comp) (updates : List (Key × Args))
    (m : CMap Key Args Comp) :
    CMap Key Args Comp × List (Keyed Key (Option (WithArgs Args Comp))) :=
  updateAsyncApply (updates.map (fun p => (p.1, WithArgs.mk (f p.1 p.2) p.2))) m

/-! ### Asynchronous fallible operations (src/async_fallible.rs)

The factory here is key-oblivious (`AsyncFn(&Args) -> Result<Comp, Error>`). -/

/-- The `collect::<Result<HashMap, _>>()` pass of `ComponentMap::try_init_async`
over the completed results: build the map, short-circuiting at the first error
in input order. -/
def tryCollect [DecidableEq Key] :
    List (Key × Except Error (WithArgs Args Comp)) → CMap Key Args Comp →
    Except Error (CMap Key Args Comp)
  | [], m => .ok m
  | (_, .error e) :: _, _ => .error e
  | (k, .ok wa) :: rest, m => tryCollect rest (hmInsert m k wa).1

/-- `ComponentMap::try_init_async`: fan out every invocation, then collect the
completed results in input order, failing on the first error. -/
def tryInitAsync [DecidableEq Key] (f : Args → Except Error Comp)
    (entries : List (Key × Args)) : Except Error (CMap Key Args Comp) :=
  tryCollect (entries.map (fun p => (p.1, (f p.2).map (fun c => WithArgs.mk c p.2)))) []

/-- `ComponentMap::try_reinit_all_async`: fan out one invocation per entry on
its stored args, then zip the completed results back over the entries: on
success replace the component and report the previous one, on failure leave
the entry untouched and report the error. -/
def tryReinitAllAsync (f : Args → Except Error Comp) (m : CMap Key Args Comp) :
    CMap Key Args Comp × List (Keyed Key (Except Error Comp)) :=
  let next := m.map (fun p => f p.2.args)
  ((m.zip next).map (fun q =>
      match q.2 with
      | .ok c => (q.1.1, WithArgs.mk c q.1.2.args)
      | .error _ => q.1),
   (m.zip next).map (fun q => Keyed.mk q.1.1 (q.2.map (fun _ => q.1.2.component))))

/-- Reconciliation pass of `ComponentMap::try_reinit_async` (the
`transpose`/`flatten` chain in the source): absent keys report `none`,
failures report the error without mutation, successes replace the component
of the (still-present) entry and report the previous one. -/
def tryReinitAsyncApply [DecidableEq Key] :
    List (Keyed Key (Option (Except Error Comp))) → CMap Key Args Comp →
    CMap Key Args Comp × List (Keyed Key (Option (Except Error Comp)))
  | [], m => (m, [])
  | Keyed.mk k res :: rest, m =>
    match res with
    | some (.ok next) =>
      match hmGet m k with
      | some wa =>
        ((tryReinitAsyncApply rest (hmSetComp m k next)).1,
         Keyed.mk k (some (.ok wa.component)) ::
           (tryReinitAsyncApply rest (hmSetComp m k next)).2)
      | none =>
        ((tryReinitAsyncApply rest m).1,
         Keyed.mk k none :: (tryReinitAsyncApply rest m).2)
    | some (.error e) =>
      ((tryReinitAsyncApply rest m).1,
       Keyed.mk k (some (.error e)) :: (tryReinitAsyncApply rest m).2)
    | none =>
      ((tryReinitAsyncApply rest m).1,
       Keyed.mk k none :: (tryReinitAsyncApply rest m).2)

/-- `ComponentMap::try_reinit_async`: fan out one invocation per present key
on the args stored before the call, then reconcile in input order. -/
def tryReinitAsync [DecidableEq Key] (f : Args → Except Error Comp) (keys : List Key)
    (m : CMap Key Args Comp) :
    CMap Key Args Comp × List (Keyed Key (Option (Except Error Comp))) :=
  tryReinitAsyncApply (keys.map (fun k => Keyed.mk k ((hmGet m k).map (fun wa => f wa.args)))) m

/-- Reconciliation pass of `ComponentMap::try_update_async`: insert each
successfully built pair (reporting the evicted pair wrapped in `.ok`), report
errors without mutation. -/
def tryUpdateAsyncApply [DecidableEq Key] :
    List (Key × Except Error (WithArgs Args Comp)) → CMap Key Args Comp →
    CMap Key Args Comp × List (Keyed Key (Option (Except Error (WithArgs Args Comp))))
  | [], m => (m, [])
  | (k, .ok wa) :: rest, m =>
    ((tryUpdateAsyncApply rest (hmInsert m k wa).1).1,
     Keyed.mk k ((hmInsert m k wa).2.map Except.ok) ::
       (tryUpdateAsyncApply rest (hmInsert m k wa).1).2)
  | (k, .error e) :: rest, m =>
    ((tryUpdateAsyncApply rest m).1,
     Keyed.mk k (some (.error e)) :: (tryUpdateAsyncApply rest m).2)

/-- `ComponentMap::try_update_async`: fan out one invocation per input pair on
the supplied args, then reconcile in input order. -/
def tryUpdateAsync [DecidableEq Key] (f : Args → Except Error Comp)
    (updates : List (Key × Args)) (m : CMap Key Args Comp) :
    CMap Key Args Comp × List (Keyed Key (Option (Except Error (WithArgs Args Comp)))) :=
  tryUpdateAsyncApply (updates.map (fun p => (p.1, (f p.2).map (fun c => WithArgs.mk c p.2)))) m

/-! ### Invocation-logged variants

The same translations, additionally recording the argument of every factory
invocation (ghost instrumentation for the claims about how often, and on what
data, the factory is called).  Each variant is proved to project onto the
plain one. -/

/-- `init` with an invocation log: the mapped closure of the source invokes
the factory once per input pair, on that pair's args. -/
def initL [DecidableEq Key] (f : Args → Comp) :
    List (Key × Args) → List (Key × WithArgs Args Comp) × List Args
  | [] => ([], [])
  | (k, a) :: rest =>
    ((k, WithArgs.mk (f a) a) :: (initL f rest).1, a :: (initL f rest).2)

/-- `init_async` with an invocation log (the key-aware factory observes the
key and the args of each input pair). -/
def initAsyncL [DecidableEq Key] (f : Key → Args → Comp) :
    List (Key × Args) → List (Key × WithArgs Args Comp) × List (Key × Args)
  | [] => ([], [])
  | (k, a) :: rest =>
    ((k, WithArgs.mk (f k a) a) :: (initAsyncL f rest).1, (k, a) :: (initAsyncL f rest).2)

/-- `reinit_all` with an invocation log: one invocation per stored entry, on
its stored args. -/
def reinitAllL (f : Args → Comp) :
    CMap Key Args Comp → (CMap Key Args Comp × List (Keyed Key Comp)) × List Args
  | [] => (([], []), [])
  | (k, wa) :: rest =>
    (((k, WithArgs.mk (f wa.args) wa.args) :: (reinitAllL f rest).1.1,
      Keyed.mk k wa.component :: (reinitAllL f rest).1.2),
     wa.args :: (reinitAllL f rest).2)

/-- The fan-out pass of `reinit_all_async` with an invocation log. -/
def reinitAllAsyncLNext (f : Key → Args → Comp) :
    CMap Key Args Comp → List Comp × List (Key × Args)
  | [] => ([], [])
  | (k, wa) :: rest =>
    (f k wa.args :: (reinitAllAsyncLNext f rest).1,
     (k, wa.args) :: (reinitAllAsyncLNext f rest).2)

/-- `reinit_all_async` with an invocation log. -/
def reinitAllAsyncL (f : Key → Args → Comp) (m : CMap Key Args Comp) :
    (CMap Key Args Comp × List (Keyed Key Comp)) × List (Key × Args) :=
  (((m.zip (reinitAllAsyncLNext f m).1).map (fun q => (q.1.1, WithArgs.mk q.2 q.1.2.args)),
    (m.zip (reinitAllAsyncLNext f m).1).map (fun q => Keyed.mk q.1.1 q.1.2.component)),
   (reinitAllAsyncLNext f m).2)

/-- `reinit` with an invocation log: present keys cost one invocation on the
stored args; absent keys cost none. -/
def reinitL [DecidableEq Key] (f : Args → Comp) :
    List Key → CMap Key Args Comp →
    (CMap Key Args Comp × List (Keyed Key (Option Comp))) × List Args
  | [], m => ((m, []), [])
  | k :: ks, m =>
    match hmGet m k with
    | some wa =>
      (((reinitL f ks (hmSetComp m k (f wa.args))).1.1,
        Keyed.mk k (some wa.component) :: (reinitL f ks (hmSetComp m k (f wa.args))).1.2),
       wa.args :: (reinitL f ks (hmSetComp m k (f wa.args))).2)
    | none =>
      (((reinitL f ks m).1.1, Keyed.mk k none :: (reinitL f ks m).1.2),
       (reinitL f ks m).2)

/-- The fan-out pass of `try_reinit_async` with an invocation log: the future
for an absent key never invokes the factory. -/
def tryReinitAsyncPhase1L [DecidableEq Key] (f : Args → Except Error Comp)
    (m : CMap Key Args Comp) :
    List Key → List (Keyed Key (Option (Except Error Comp))) × List Args
  | [] => ([], [])
  | k :: ks =>
    match hmGet m k with
    | some wa =>
      (Keyed.mk k (some (f wa.args)) :: (tryReinitAsyncPhase1L f m ks).1,
       wa.args :: (tryReinitAsyncPhase1L f m ks).2)
    | none =>
      (Keyed.mk k none :: (tryReinitAsyncPhase1L f m ks).1,
       (tryReinitAsyncPhase1L f m ks).2)

/-- `try_reinit_async` with an invocation log. -/
def tryReinitAsyncL [DecidableEq Key] (f : Args → Except Error Comp) (keys : List Key)
    (m : CMap Key Args Comp) :
    (CMap Key Args Comp × List (Keyed Key (Option (Except Error Comp)))) × List Args :=
  (tryReinitAsyncApply (tryReinitAsyncPhase1L f m keys).1 m,
   (tryReinitAsyncPhase1L f m keys).2)

/-! ### Specification-side helpers -/

/-- The first factory error over an input sequence, in input order. -/
def firstInitError (f : Args → Except Error Comp) : List (Key × Args) → Option Error
  | [] => none
  | (_, a) :: rest =>
    match f a with
    | .error e => some e
    | .ok _ => firstInitError f rest

/-- Last-write-wins value for a key over a sequence of map entries. -/
def lastVal [DecidableEq Key] : List (Key × WithArgs Args Comp) → Key → Option (WithArgs Args Comp)
  | [], _ => none
  | (k', v) :: rest, k =>
    match lastVal rest k with
    | some v' => some v'
    | none => if k' = k then some v else none

/-- Last-write-wins args for a key over an input sequence of `(key, args)`
pairs. -/
def lastArg [DecidableEq Key] : List (Key × Args) → Key → Option Args
  | [], _ => none
  | (k', a) :: rest, k =>
    match lastArg rest k with
    | some a' => some a'
    | none => if k' = k then some a else none

/-- Pair coherence under a fallible factory: every stored component is the
successful materialization of its stored args. -/
def Coherent (f : Args → Except Error Comp) (m : CMap Key Args Comp) : Prop :=
  ∀ p ∈ m, f p.2.args = .ok p.2.component

/-- Pair coherence under an infallible key-oblivious factory. -/
def CoherentI (f : Args → Comp) (m : CMap Key Args Comp) : Prop :=
  ∀ p ∈ m, p.2.component = f p.2.args

/-- Pair coherence under an infallible key-aware factory. -/
def CoherentK (f : Key → Args → Comp) (m : CMap Key Args Comp) : Prop :=
  ∀ p ∈ m, p.2.component = f p.1 p.2.args

/-- The skeleton of a map: its keys and stored args, in order.  Operations
with the same skeleton before and after touch neither the key set nor any
stored args. -/
def skeleton (m : CMap Key Args Comp) : List (Key × Args) :=
  m.map (fun p => (p.1, p.2.args))

/-! ### Basic lemmas about the embedded `HashMap` operations -/

theorem hmGet_hmInsert [DecidableEq Key] (m : CMap Key Args Comp) (k : Key)
    (v : WithArgs Args Comp) (k' : Key) :
    hmGet (hmInsert m k v).1 k' = if k' = k then some v else hmGet m k' := by
  induction m with
  | nil =>
    by_cases h : k = k'
    · subst h; simp [hmInsert, hmGet]
    · simp [hmInsert, hmGet, h, Ne.symm h]
  | cons hd tl ih =>
    obtain ⟨k₀, wa⟩ := hd
    by_cases h : k₀ = k
    · subst h
      by_cases h' : k₀ = k'
      · subst h'; simp [hmInsert, hmGet]
      · simp [hmInsert, hmGet, h', Ne.symm h']
    · by_cases h' : k₀ = k'
      · subst h'
        simp [hmInsert, hmGet, h, fun hh : k₀ = k => h hh]
      · simp [hmInsert, hmGet, h, h', ih]

theorem hmInsert_snd [DecidableEq Key] (m : CMap Key Args Comp) (k : Key)
    (v : WithArgs Args Comp) : (hmInsert m k v).2 = hmGet m k := by
  induction m with
  | nil => simp [hmInsert, hmGet]
  | cons hd tl ih =>
    obtain ⟨k₀, wa⟩ := hd
    by_cases h : k₀ = k <;> simp [hmInsert, hmGet, h, ih]

theorem hmInsert_length [DecidableEq Key] (m : CMap Key Args Comp) (k : Key)
    (v : WithArgs Args Comp) :
    (hmInsert m k v).1.length = if (hmGet m k).isSome then m.length else m.length + 1 := by
  induction m with
  | nil => simp [hmInsert, hmGet]
  | cons hd tl ih =>
    obtain ⟨k₀, wa⟩ := hd
    by_cases h : k₀ = k
    · simp [hmInsert, hmGet, h]
    · simp only [hmInsert, if_neg h, hmGet, List.length_cons, ih]
      split_ifs <;> rfl

theorem hmGet_hmSetComp [DecidableEq Key] (m : CMap Key Args Comp) (k : Key) (c : Comp)
    (k' : Key) :
    hmGet (hmSetComp m k c) k' =
      if k' = k then (hmGet m k).map (fun wa => WithArgs.mk c wa.args)
      else hmGet m k' := by
  induction m with
  | nil => simp [hmSetComp, hmGet]
  | cons hd tl ih =>
    obtain ⟨k₀, wa⟩ := hd
    by_cases h : k₀ = k
    · subst h
      by_cases h' : k₀ = k'
      · subst h'; simp [hmSetComp, hmGet]
      · simp [hmSetComp, hmGet, h', Ne.symm h']
    · by_cases h' : k₀ = k'
      · subst h'
        simp [hmSetComp, hmGet, h, fun hh : k₀ = k => h hh]
      · simp [hmSetComp, hmGet, h, h', ih]

theorem hmSetComp_skeleton [DecidableEq Key] (m : CMap Key Args Comp) (k : Key) (c : Comp) :
    skeleton (hmSetComp m k c) = skeleton m := by
  induction m with
  | nil => simp [hmSetComp]
  | cons hd tl ih =>
    obtain ⟨k₀, wa⟩ := hd
    by_cases h : k₀ = k
    · subst h; simp [hmSetComp, skeleton]
    · simp only [hmSetComp, if_neg h, skeleton, List.map_cons]
      exact congrArg _ (by simpa [skeleton] using ih)

theorem hmSetComp_length [DecidableEq Key] (m : CMap Key Args Comp) (k : Key) (c : Comp) :
    (hmSetComp m k c).length = m.length := by
  have := congrArg List.length (hmSetComp_skeleton m k c)
  simpa [skeleton] using this

/-! ### Projection lemmas: the logged variants compute the plain operations -/

theorem initL_fst [DecidableEq Key] (f : Args → Comp) (es : List (Key × Args)) :
    (initL f es).1 = es.map (fun p => (p.1, WithArgs.mk (f p.2) p.2)) := by
  induction es with
  | nil => rfl
  | cons hd tl ih => obtain ⟨k, a⟩ := hd; simp [initL, ih]

theorem initL_log [DecidableEq Key] (f : Args → Comp) (es : List (Key × Args)) :
    (initL f es).2 = es.map (fun p => p.2) := by
  induction es with
  | nil => rfl
  | cons hd tl ih => obtain ⟨k, a⟩ := hd; simp [initL, ih]

theorem init_eq_initL [DecidableEq Key] (f : Args → Comp) (es : List (Key × Args)) :
    init f es = hmCollect (initL f es).1 := by
  rw [init, initL_fst]

theorem initAsyncL_fst [DecidableEq Key] (f : Key → Args → Comp) (es : List (Key × Args)) :
    (initAsyncL f es).1 = es.map (fun p => (p.1, WithArgs.mk (f p.1 p.2) p.2)) := by
  induction es with
  | nil => rfl
  | cons hd tl ih => obtain ⟨k, a⟩ := hd; simp [initAsyncL, ih]

theorem initAsyncL_log [DecidableEq Key] (f : Key → Args → Comp) (es : List (Key × Args)) :
    (initAsyncL f es).2 = es := by
  induction es with
  | nil => rfl
  | cons hd tl ih => obtain ⟨k, a⟩ := hd; simp [initAsyncL, ih]

theorem initAsync_eq_initAsyncL [DecidableEq Key] (f : Key → Args → Comp)
    (es : List (Key × Args)) : initAsync f es = hmCollect (initAsyncL f es).1 := by
  rw [initAsync, initAsyncL_fst]

theorem reinitAllL_fst (f : Args → Comp) (m : CMap Key Args Comp) :
    (reinitAllL f m).1 = reinitAll f m := by
  induction m with
  | nil => rfl
  | cons hd tl ih => obtain ⟨k, wa⟩ := hd; simp [reinitAllL, reinitAll, ih]

theorem reinitAllL_log (f : Args → Comp) (m : CMap Key Args Comp) :
    (reinitAllL f m).2 = m.map (fun p => p.2.args) := by
  induction m with
  | nil => rfl
  | cons hd tl ih => obtain ⟨k, wa⟩ := hd; simp [reinitAllL, ih]

theorem reinitAllAsyncLNext_fst (f : Key → Args → Comp) (m : CMap Key Args Comp) :
    (reinitAllAsyncLNext f m).1 = m.map (fun p => f p.1 p.2.args) := by
  induction m with
  | nil => rfl
  | cons hd tl ih => obtain ⟨k, wa⟩ := hd; simp [reinitAllAsyncLNext, ih]

theorem reinitAllAsyncLNext_log (f : Key → Args → Comp) (m : CMap Key Args Comp) :
    (reinitAllAsyncLNext f m).2 = skeleton m := by
  induction m with
  | nil => rfl
  | cons hd tl ih => obtain ⟨k, wa⟩ := hd; simp [reinitAllAsyncLNext, skeleton, ih]

theorem reinitAllAsyncL_fst (f : Key → Args → Comp) (m : CMap Key Args Comp) :
    (reinitAllAsyncL f m).1 = reinitAllAsync f m := by
  rw [reinitAllAsyncL, reinitAllAsync, reinitAllAsyncLNext_fst]

theorem reinitAllAsyncL_log (f : Key → Args → Comp) (m : CMap Key Args Comp) :
    (reinitAllAsyncL f m).2 = skeleton m := by
  rw [reinitAllAsyncL, reinitAllAsyncLNext_log]

theorem reinitL_fst [DecidableEq Key] (f : Args → Comp) (ks : List Key)
    (m : CMap Key Args Comp) : (reinitL f ks m).1 = reinit f ks m := by
  induction ks generalizing m with
  | nil => rfl
  | cons k ks ih =>
    cases h : hmGet m k <;> simp [reinitL, reinit, h, ih]

theorem tryReinitAsyncPhase1L_fst [DecidableEq Key] (f : Args → Except Error Comp)
    (m : CMap Key Args Comp) (ks : List Key) :
    (tryReinitAsyncPhase1L f m ks).1 =
      ks.map (fun k => Keyed.mk k ((hmGet m k).map (fun wa => f wa.args))) := by
  induction ks with
  | nil => rfl
  | cons k ks ih =>
    cases h : hmGet m k <;> simp [tryReinitAsyncPhase1L, h, ih]

theorem tryReinitAsyncPhase1L_log [DecidableEq Key] (f : Args → Except Error Comp)
    (m : CMap Key Args Comp) (ks : List Key) :
    (tryReinitAsyncPhase1L f m ks).2 =
      ks.filterMap (fun k => (hmGet m k).map (fun wa => wa.args)) := by
  induction ks with
  | nil => rfl
  | cons k ks ih =>
    cases h : hmGet m k <;> simp [tryReinitAsyncPhase1L, h, ih]

theorem tryReinitAsyncL_fst [DecidableEq Key] (f : Args → Except Error Comp)
    (ks : List Key) (m : CMap Key Args Comp) :
    (tryReinitAsyncL f ks m).1 = tryReinitAsync f ks m := by
  rw [tryReinitAsyncL, tryReinitAsync, tryReinitAsyncPhase1L_fst]

/-! ### Closed forms of the bulk operations -/

theorem zip_map_self {α β γ : Type} (g : α → β) (h : α × β → γ) (l : List α) :
    (l.zip (l.map g)).map h = l.map (fun a => h (a, g a)) := by
  induction l with
  | nil => rfl
  | cons hd tl ih => simp [ih]

theorem reinitAll_eq (f : Args → Comp) (m : CMap Key Args Comp) :
    reinitAll f m = (m.map (fun p => (p.1, WithArgs.mk (f p.2.args) p.2.args)),
                     m.map (fun p => Keyed.mk p.1 p.2.component)) := by
  induction m with
  | nil => rfl
  | cons hd tl ih => obtain ⟨k, wa⟩ := hd; simp [reinitAll, ih]

theorem tryReinitAll_eq (f : Args → Except Error Comp) (m : CMap Key Args Comp) :
    tryReinitAll f m =
      (m.map (fun p =>
        match f p.2.args with
        | .ok c => (p.1, WithArgs.mk c p.2.args)
        | .error _ => p),
       m.map (fun p => Keyed.mk p.1 ((f p.2.args).map (fun _ => p.2.component)))) := by
  induction m with
  | nil => rfl
  | cons hd tl ih =>
    obtain ⟨k, wa⟩ := hd
    cases h : f wa.args <;> simp [tryReinitAll, h, ih, Except.map]

theorem reinitAllAsync_eq (f : Key → Args → Comp) (m : CMap Key Args Comp) :
    reinitAllAsync f m = (m.map (fun p => (p.1, WithArgs.mk (f p.1 p.2.args) p.2.args)),
                          m.map (fun p => Keyed.mk p.1 p.2.component)) := by
  rw [reinitAllAsync]
  simp only [zip_map_self]

theorem tryReinitAllAsync_eq (f : Args → Except Error Comp) (m : CMap Key Args Comp) :
    tryReinitAllAsync f m = tryReinitAll f m := by
  rw [tryReinitAll_eq, tryReinitAllAsync]
  simp only [zip_map_self]

/-! ### The asynchronous fallible operations agree with their synchronous
counterparts (the factory is pure, and `join_all` preserves input order) -/

theorem exceptMap_ok {α β ε : Type} (g : α → β) (a : α) :
    Except.map g (.ok a : Except ε α) = .ok (g a) := rfl

theorem exceptMap_error {α β ε : Type} (g : α → β) (e : ε) :
    Except.map g (.error e : Except ε α) = .error e := rfl

theorem tryCollect_eq_tryInitGo [DecidableEq Key] (f : Args → Except Error Comp)
    (es : List (Key × Args)) (m : CMap Key Args Comp) :
    tryCollect (es.map (fun p => (p.1, (f p.2).map (fun c => WithArgs.mk c p.2)))) m =
      tryInitGo f es m := by
  induction es generalizing m with
  | nil => rfl
  | cons hd tl ih =>
    obtain ⟨k, a⟩ := hd
    cases h : f a with
    | error e =>
      simp only [List.map_cons, h, exceptMap_error, tryCollect, tryInitGo]
    | ok c =>
      simp only [List.map_cons, h, exceptMap_ok, tryCollect, tryInitGo]
      exact ih _

theorem tryInitAsync_eq_tryInit [DecidableEq Key] (f : Args → Except Error Comp)
    (es : List (Key × Args)) : tryInitAsync f es = tryInit f es := by
  rw [tryInitAsync, tryInit, tryCollect_eq_tryInitGo]

theorem hmGet_hmSetComp_fargs [DecidableEq Key] {γ : Type} (g : Args → γ)
    (m : CMap Key Args Comp) (k : Key) (c : Comp) (k' : Key) :
    (hmGet (hmSetComp m k c) k').map (fun wa => g wa.args) =
      (hmGet m k').map (fun wa => g wa.args) := by
  rw [hmGet_hmSetComp]
  split_ifs with h
  · subst h; cases hmGet m k' <;> rfl
  · rfl

theorem tryReinitAsync_eq_tryReinit [DecidableEq Key] (f : Args → Except Error Comp)
    (ks : List Key) (m : CMap Key Args Comp) :
    tryReinitAsync f ks m = tryReinit f ks m := by
  induction ks generalizing m with
  | nil => rfl
  | cons k ks ih =>
    cases h : hmGet m k with
    | none =>
      have hrec := ih m
      rw [tryReinitAsync] at hrec
      simp [tryReinitAsync, tryReinit, tryReinitAsyncApply, h, hrec]
    | some wa =>
      cases hf : f wa.args with
      | error e =>
        have hrec := ih m
        rw [tryReinitAsync] at hrec
        simp [tryReinitAsync, tryReinit, tryReinitAsyncApply, h, hf, hrec]
      | ok c =>
        have hrec := ih (hmSetComp m k c)
        rw [tryReinitAsync] at hrec
        simp only [hmGet_hmSetComp_fargs] at hrec
        simp [tryReinitAsync, tryReinit, tryReinitAsyncApply, h, hf, hrec]

theorem tryUpdateAsync_eq_tryUpdate [DecidableEq Key] (f : Args → Except Error Comp)
    (us : List (Key × Args)) (m : CMap Key Args Comp) :
    tryUpdateAsync f us m = tryUpdate f us m := by
  induction us generalizing m with
  | nil => rfl
  | cons hd us ih =>
    obtain ⟨k, a⟩ := hd
    cases h : f a with
    | error e =>
      have hrec := ih m
      rw [tryUpdateAsync] at hrec
      simp only [tryUpdateAsync, List.map_cons, h, exceptMap_error, tryUpdateAsyncApply,
        tryUpdate, hrec]
    | ok c =>
      have hrec := ih (hmInsert m k (WithArgs.mk c a)).1
      rw [tryUpdateAsync] at hrec
      simp only [tryUpdateAsync, List.map_cons, h, exceptMap_ok, tryUpdateAsyncApply,
        tryUpdate, hrec]

/-- Processing one `(key, args)` pair of `update_async`: the previously stored
pair is reported and the freshly built pair is inserted before the rest of the
batch is reconciled. -/
theorem updateAsync_cons [DecidableEq Key] (f : Key → Args → Comp) (k : Key) (a : Args)
    (us : List (Key × Args)) (m : CMap Key Args Comp) :
    updateAsync f ((k, a) :: us) m =
      ((updateAsync f us (hmInsert m k (WithArgs.mk (f k a) a)).1).1,
       Keyed.mk k (hmGet m k) ::
         (updateAsync f us (hmInsert m k (WithArgs.mk (f k a) a)).1).2) := by
  simp [updateAsync, updateAsyncApply, hmInsert_snd]

/-! ### Construction: short-circuit collection and the first error -/

theorem tryInitGo_error_iff [DecidableEq Key] (f : Args → Except Error Comp)
    (es : List (Key × Args)) (m : CMap Key Args Comp) (e : Error) :
    tryInitGo f es m = .error e ↔ firstInitError f es = some e := by
  induction es generalizing m with
  | nil => simp [tryInitGo, firstInitError]
  | cons hd tl ih =>
    obtain ⟨k, a⟩ := hd
    cases h : f a <;> simp [tryInitGo, firstInitError, h, ih]

theorem tryInitGo_ok [DecidableEq Key] (f : Args → Except Error Comp) (g : Args → Comp)
    (es : List (Key × Args)) (m : CMap Key Args Comp)
    (h : ∀ p ∈ es, f p.2 = .ok (g p.2)) :
    tryInitGo f es m =
      .ok ((es.map (fun p => (p.1, WithArgs.mk (g p.2) p.2))).foldl
        (fun m' p => (hmInsert m' p.1 p.2).1) m) := by
  induction es generalizing m with
  | nil => simp [tryInitGo]
  | cons hd tl ih =>
    obtain ⟨k, a⟩ := hd
    have ha : f a = .ok (g a) := h (k, a) (by simp)
    simp only [tryInitGo, ha, List.map_cons, List.foldl_cons]
    exact ih _ (fun p hp => h p (by simp [hp]))

/-! ### Last-write-wins content of collected maps -/

theorem hmGet_foldl_hmInsert [DecidableEq Key] (ps : List (Key × WithArgs Args Comp))
    (m : CMap Key Args Comp) (k : Key) :
    hmGet (ps.foldl (fun m' p => (hmInsert m' p.1 p.2).1) m) k =
      match lastVal ps k with
      | some v => some v
      | none => hmGet m k := by
  induction ps generalizing m with
  | nil => simp [lastVal]
  | cons hd tl ih =>
    obtain ⟨k₀, v⟩ := hd
    simp only [List.foldl_cons, ih, lastVal]
    cases lastVal tl k with
    | some v' => rfl
    | none =>
      simp only [hmGet_hmInsert]
      by_cases h : k = k₀
      · subst h; simp
      · have h' : ¬k₀ = k := fun hh => h hh.symm
        simp [h, h']

theorem hmGet_hmCollect [DecidableEq Key] (ps : List (Key × WithArgs Args Comp)) (k : Key) :
    hmGet (hmCollect ps) k = lastVal ps k := by
  rw [hmCollect, hmGet_foldl_hmInsert]
  cases lastVal ps k <;> simp [hmGet]

theorem lastVal_map [DecidableEq Key] (es : List (Key × Args))
    (h : Args → WithArgs Args Comp) (k : Key) :
    lastVal (es.map (fun p => (p.1, h p.2))) k = (lastArg es k).map h := by
  induction es with
  | nil => rfl
  | cons hd tl ih =>
    obtain ⟨k₀, a⟩ := hd
    simp only [List.map_cons, lastVal, lastArg, ih]
    cases lastArg tl k with
    | some a' => rfl
    | none => by_cases hk : k₀ = k <;> simp [hk]

theorem lastArg_eq_none_iff [DecidableEq Key] (es : List (Key × Args)) (k : Key) :
    lastArg es k = none ↔ k ∉ es.map (fun p => p.1) := by
  induction es with
  | nil => simp [lastArg]
  | cons hd tl ih =>
    obtain ⟨k₀, a⟩ := hd
    simp only [lastArg, List.map_cons, List.mem_cons, not_or]
    cases h : lastArg tl k with
    | some a' =>
      have htl : k ∈ tl.map (fun p => p.1) := by
        by_contra hc
        rw [← ih, h] at hc
        cases hc
      simp [htl]
    | none =>
      have htl : k ∉ tl.map (fun p => p.1) := ih.mp h
      by_cases hk : k₀ = k
      · subst hk; simp [htl]
      · have hk' : ¬k = k₀ := fun hh => hk hh.symm
        simp [hk, hk', htl]

/-! ### Reporting order of the asynchronous reconciliation passes -/

theorem reinitAsyncApply_keys [DecidableEq Key] (rs : List (Keyed Key (Option Comp)))
    (m : CMap Key Args Comp) :
    (reinitAsyncApply rs m).2.map (fun r => r.key) = rs.map (fun r => r.key) := by
  induction rs generalizing m with
  | nil => rfl
  | cons hd tl ih =>
    obtain ⟨k, next⟩ := hd
    cases next with
    | none => simp [reinitAsyncApply, ih]
    | some n => cases h : hmGet m k <;> simp [reinitAsyncApply, h, ih]

theorem tryReinitAsyncApply_keys [DecidableEq Key]
    (rs : List (Keyed Key (Option (Except Error Comp)))) (m : CMap Key Args Comp) :
    (tryReinitAsyncApply rs m).2.map (fun r => r.key) = rs.map (fun r => r.key) := by
  induction rs generalizing m with
  | nil => rfl
  | cons hd tl ih =>
    obtain ⟨k, res⟩ := hd
    match res with
    | none => simp [tryReinitAsyncApply, ih]
    | some (.error e) => simp [tryReinitAsyncApply, ih]
    | some (.ok c) => cases h : hmGet m k <;> simp [tryReinitAsyncApply, h, ih]

theorem updateAsyncApply_keys [DecidableEq Key] (ps : List (Key × WithArgs Args Comp))
    (m : CMap Key Args Comp) :
    (updateAsyncApply ps m).2.map (fun r => r.key) = ps.map (fun p => p.1) := by
  induction ps generalizing m with
  | nil => rfl
  | cons hd tl ih => obtain ⟨k, wa⟩ := hd; simp [updateAsyncApply, ih]

theorem tryUpdateAsyncApply_keys [DecidableEq Key]
    (ps : List (Key × Except Error (WithArgs Args Comp))) (m : CMap Key Args Comp) :
    (tryUpdateAsyncApply ps m).2.map (fun r => r.key) = ps.map (fun p => p.1) := by
  induction ps generalizing m with
  | nil => rfl
  | cons hd tl ih =>
    obtain ⟨k, res⟩ := hd
    cases res <;> simp [tryUpdateAsyncApply, ih]

/-! ### Frame lemmas: re-creation never changes keys or stored args -/

theorem reinitAll_skeleton (f : Args → Comp) (m : CMap Key Args Comp) :
    skeleton (reinitAll f m).1 = skeleton m := by
  rw [reinitAll_eq]
  simp [skeleton, List.map_map, Function.comp]

theorem tryReinitAll_skeleton (f : Args → Except Error Comp) (m : CMap Key Args Comp) :
    skeleton (tryReinitAll f m).1 = skeleton m := by
  induction m with
  | nil => rfl
  | cons hd tl ih =>
    obtain ⟨k, wa⟩ := hd
    cases h : f wa.args <;> simpa [tryReinitAll, h, skeleton] using ih

theorem reinit_skeleton [DecidableEq Key] (f : Args → Comp) (ks : List Key)
    (m : CMap Key Args Comp) : skeleton (reinit f ks m).1 = skeleton m := by
  induction ks generalizing m with
  | nil => rfl
  | cons k ks ih =>
    cases h : hmGet m k with
    | none => simp [reinit, h, ih]
    | some wa =>
      simp only [reinit, h]
      rw [ih, hmSetComp_skeleton]

theorem tryReinit_skeleton [DecidableEq Key] (f : Args → Except Error Comp) (ks : List Key)
    (m : CMap Key Args Comp) : skeleton (tryReinit f ks m).1 = skeleton m := by
  induction ks generalizing m with
  | nil => rfl
  | cons k ks ih =>
    cases h : hmGet m k with
    | none => simp [tryReinit, h, ih]
    | some wa =>
      cases hf : f wa.args with
      | error e => simp [tryReinit, h, hf, ih]
      | ok c =>
        simp only [tryReinit, h, hf]
        rw [ih, hmSetComp_skeleton]

theorem reinitAsyncApply_skeleton [DecidableEq Key] (rs : List (Keyed Key (Option Comp)))
    (m : CMap Key Args Comp) : skeleton (reinitAsyncApply rs m).1 = skeleton m := by
  induction rs generalizing m with
  | nil => rfl
  | cons hd tl ih =>
    obtain ⟨k, next⟩ := hd
    cases next with
    | none => simp [reinitAsyncApply, ih]
    | some n =>
      cases h : hmGet m k with
      | none => simp [reinitAsyncApply, h, ih]
      | some wa =>
        simp only [reinitAsyncApply, h]
        rw [ih, hmSetComp_skeleton]

theorem tryReinitAsyncApply_skeleton [DecidableEq Key]
    (rs : List (Keyed Key (Option (Except Error Comp)))) (m : CMap Key Args Comp) :
    skeleton (tryReinitAsyncApply rs m).1 = skeleton m := by
  induction rs generalizing m with
  | nil => rfl
  | cons hd tl ih =>
    obtain ⟨k, res⟩ := hd
    match res with
    | none => simp [tryReinitAsyncApply, ih]
    | some (.error e) => simp [tryReinitAsyncApply, ih]
    | some (.ok c) =>
      cases h : hmGet m k with
      | none => simp [tryReinitAsyncApply, h, ih]
      | some wa =>
        simp only [tryReinitAsyncApply, h]
        rw [ih, hmSetComp_skeleton]

theorem reinitAsync_skeleton [DecidableEq Key] (f : Key → Args → Comp) (ks : List Key)
    (m : CMap Key Args Comp) : skeleton (reinitAsync f ks m).1 = skeleton m :=
  reinitAsyncApply_skeleton _ m

theorem tryReinitAsync_skeleton [DecidableEq Key] (f : Args → Except Error Comp)
    (ks : List Key) (m : CMap Key Args Comp) :
    skeleton (tryReinitAsync f ks m).1 = skeleton m :=
  tryReinitAsyncApply_skeleton _ m

theorem reinitAllAsync_skeleton (f : Key → Args → Comp) (m : CMap Key Args Comp) :
    skeleton (reinitAllAsync f m).1 = skeleton m := by
  rw [reinitAllAsync_eq]
  simp [skeleton, List.map_map, Function.comp]

theorem tryReinitAllAsync_skeleton (f : Args → Except Error Comp) (m : CMap Key Args Comp) :
    skeleton (tryReinitAllAsync f m).1 = skeleton m := by
  rw [tryReinitAllAsync_eq]
  exact tryReinitAll_skeleton f m

/-! ### Keys not targeted by a selective re-creation are untouched -/

theorem reinit_notMem [DecidableEq Key] (f : Args → Comp) (ks : List Key) (k' : Key)
    (m : CMap Key Args Comp) (h : k' ∉ ks) :
    hmGet (reinit f ks m).1 k' = hmGet m k' := by
  revert h
  induction ks generalizing m with
  | nil => intro h; rfl
  | cons k ks ih =>
    intro h
    have hne : ¬k' = k := fun hh => h (hh ▸ List.mem_cons_self k ks)
    have h2 : k' ∉ ks := fun hh => h (List.mem_cons_of_mem _ hh)
    cases hget : hmGet m k with
    | none => simp [reinit, hget, ih m h2]
    | some wa =>
      simp only [reinit, hget]
      rw [ih _ h2, hmGet_hmSetComp]
      simp [hne]

theorem tryReinit_notMem [DecidableEq Key] (f : Args → Except Error Comp) (ks : List Key)
    (k' : Key) (m : CMap Key Args Comp) (h : k' ∉ ks) :
    hmGet (tryReinit f ks m).1 k' = hmGet m k' := by
  revert h
  induction ks generalizing m with
  | nil => intro h; rfl
  | cons k ks ih =>
    intro h
    have hne : ¬k' = k := fun hh => h (hh ▸ List.mem_cons_self k ks)
    have h2 : k' ∉ ks := fun hh => h (List.mem_cons_of_mem _ hh)
    cases hget : hmGet m k with
    | none => simp [tryReinit, hget, ih m h2]
    | some wa =>
      cases hf : f wa.args with
      | error e => simp [tryReinit, hget, hf, ih m h2]
      | ok c =>
        simp only [tryReinit, hget, hf]
        rw [ih _ h2, hmGet_hmSetComp]
        simp [hne]

theorem reinitAsyncApply_notMem [DecidableEq Key] (rs : List (Keyed Key (Option Comp)))
    (k' : Key) (m : CMap Key Args Comp) (h : k' ∉ rs.map (fun r => r.key)) :
    hmGet (reinitAsyncApply rs m).1 k' = hmGet m k' := by
  revert h
  induction rs generalizing m with
  | nil => intro h; rfl
  | cons hd tl ih =>
    intro h
    obtain ⟨k, next⟩ := hd
    have hne : ¬k' = k := fun hh => h (by simp [hh])
    have h2 : k' ∉ tl.map (fun r => r.key) := fun hh => h (by simp [hh])
    cases next with
    | none => simp [reinitAsyncApply, ih m h2]
    | some n =>
      cases hget : hmGet m k with
      | none => simp [reinitAsyncApply, hget, ih m h2]
      | some wa =>
        simp only [reinitAsyncApply, hget]
        rw [ih _ h2, hmGet_hmSetComp]
        simp [hne]

theorem tryReinitAsyncApply_notMem [DecidableEq Key]
    (rs : List (Keyed Key (Option (Except Error Comp)))) (k' : Key)
    (m : CMap Key Args Comp) (h : k' ∉ rs.map (fun r => r.key)) :
    hmGet (tryReinitAsyncApply rs m).1 k' = hmGet m k' := by
  revert h
  induction rs generalizing m with
  | nil => intro h; rfl
  | cons hd tl ih =>
    intro h
    obtain ⟨k, res⟩ := hd
    have hne : ¬k' = k := fun hh => h (by simp [hh])
    have h2 : k' ∉ tl.map (fun r => r.key) := fun hh => h (by simp [hh])
    match res with
    | none => simp [tryReinitAsyncApply, ih m h2]
    | some (.error e) => simp [tryReinitAsyncApply, ih m h2]
    | some (.ok c) =>
      cases hget : hmGet m k with
      | none => simp [tryReinitAsyncApply, hget, ih m h2]
      | some wa =>
        simp only [tryReinitAsyncApply, hget]
        rw [ih _ h2, hmGet_hmSetComp]
        simp [hne]

theorem reinitAsync_notMem [DecidableEq Key] (f : Key → Args → Comp) (ks : List Key)
    (k' : Key) (m : CMap Key Args Comp) (h : k' ∉ ks) :
    hmGet (reinitAsync f ks m).1 k' = hmGet m k' := by
  refine reinitAsyncApply_notMem _ k' m ?_
  simpa [List.map_map, Function.comp] using h

theorem tryReinitAsync_notMem [DecidableEq Key] (f : Args → Except Error Comp)
    (ks : List Key) (k' : Key) (m : CMap Key Args Comp) (h : k' ∉ ks) :
    hmGet (tryReinitAsync f ks m).1 k' = hmGet m k' := by
  refine tryReinitAsyncApply_notMem _ k' m ?_
  simpa [List.map_map, Function.comp] using h

/-! ### A failed re-creation leaves the whole stored pair unchanged -/

theorem tryReinit_error_unchanged [DecidableEq Key] (f : Args → Except Error Comp)
    (ks : List Key) (m : CMap Key Args Comp) (k : Key) (wa : WithArgs Args Comp) (e : Error)
    (hget : hmGet m k = some wa) (herr : f wa.args = .error e) :
    hmGet (tryReinit f ks m).1 k = some wa := by
  revert hget
  induction ks generalizing m with
  | nil => intro hget; exact hget
  | cons k₀ ks ih =>
    intro hget
    cases h : hmGet m k₀ with
    | none => simp [tryReinit, h, ih m hget]
    | some wa₀ =>
      cases hf : f wa₀.args with
      | error e₀ => simp [tryReinit, h, hf, ih m hget]
      | ok c =>
        simp only [tryReinit, h, hf]
        refine ih _ ?_
        rw [hmGet_hmSetComp]
        by_cases hk : k = k₀
        · subst hk
          rw [hget] at h
          cases h
          rw [herr] at hf
          cases hf
        · simp [hk, hget]

theorem tryReinitAsync_error_unchanged [DecidableEq Key] (f : Args → Except Error Comp)
    (ks : List Key) (m : CMap Key Args Comp) (k : Key) (wa : WithArgs Args Comp) (e : Error)
    (hget : hmGet m k = some wa) (herr : f wa.args = .error e) :
    hmGet (tryReinitAsync f ks m).1 k = some wa := by
  rw [tryReinitAsync_eq_tryReinit]
  exact tryReinit_error_unchanged f ks m k wa e hget herr

/-! ### Membership lemmas -/

theorem hmInsert_mem [DecidableEq Key] (m : CMap Key Args Comp) (k : Key)
    (v : WithArgs Args Comp) (p : Key × WithArgs Args Comp)
    (hp : p ∈ (hmInsert m k v).1) : p ∈ m ∨ p = (k, v) := by
  induction m with
  | nil =>
    simp only [hmInsert, List.mem_singleton] at hp
    exact Or.inr hp
  | cons hd tl ih =>
    obtain ⟨k₀, wa⟩ := hd
    by_cases h : k₀ = k
    · subst h
      simp only [hmInsert] at hp
      rw [if_pos trivial] at hp
      rcases List.mem_cons.mp hp with h1 | h1
      · exact Or.inr h1
      · exact Or.inl (List.mem_cons_of_mem _ h1)
    · simp only [hmInsert, if_neg h, List.mem_cons] at hp
      rcases hp with h1 | h1
      · left; rw [h1]; exact List.mem_cons_self _ _
      · rcases ih h1 with h2 | h2
        · exact Or.inl (List.mem_cons_of_mem _ h2)
        · exact Or.inr h2

theorem hmSetComp_mem [DecidableEq Key] (m : CMap Key Args Comp) (k : Key) (c : Comp)
    (p : Key × WithArgs Args Comp) (hp : p ∈ hmSetComp m k c) :
    p ∈ m ∨ ∃ wa, hmGet m k = some wa ∧ p = (k, WithArgs.mk c wa.args) := by
  induction m with
  | nil => cases hp
  | cons hd tl ih =>
    obtain ⟨k₀, wa₀⟩ := hd
    by_cases h : k₀ = k
    · subst h
      simp only [hmSetComp] at hp
      rw [if_pos trivial] at hp
      rcases List.mem_cons.mp hp with h1 | h1
      · exact Or.inr ⟨wa₀, by simp [hmGet], h1⟩
      · exact Or.inl (List.mem_cons_of_mem _ h1)
    · simp only [hmSetComp, if_neg h, List.mem_cons] at hp
      rcases hp with h1 | h1
      · left; rw [h1]; exact List.mem_cons_self _ _
      · rcases ih h1 with h2 | ⟨wa, hget, hpe⟩
        · exact Or.inl (List.mem_cons_of_mem _ h2)
        · exact Or.inr ⟨wa, by simp [hmGet, h, hget], hpe⟩

/-! ### Pair coherence: every stored component is built from its stored args -/

theorem coherent_hmInsert [DecidableEq Key] {f : Args → Except Error Comp}
    {m : CMap Key Args Comp} {k : Key} {v : WithArgs Args Comp} (hm : Coherent f m)
    (hv : f v.args = .ok v.component) : Coherent f (hmInsert m k v).1 := by
  intro p hp
  rcases hmInsert_mem m k v p hp with h | h
  · exact hm p h
  · rw [h]; exact hv

theorem coherent_hmSetComp [DecidableEq Key] {f : Args → Except Error Comp}
    {m : CMap Key Args Comp} (k : Key) (c : Comp) (hm : Coherent f m)
    (hc : ∀ wa, hmGet m k = some wa → f wa.args = .ok c) :
    Coherent f (hmSetComp m k c) := by
  intro p hp
  rcases hmSetComp_mem m k c p hp with h | ⟨wa, hget, hpe⟩
  · exact hm p h
  · rw [hpe]; exact hc wa hget

theorem coherent_tryInitGo [DecidableEq Key] {f : Args → Except Error Comp}
    (es : List (Key × Args)) (m m₁ : CMap Key Args Comp) (hm : Coherent f m)
    (h : tryInitGo f es m = .ok m₁) : Coherent f m₁ := by
  induction es generalizing m with
  | nil =>
    simp only [tryInitGo, Except.ok.injEq] at h
    exact h ▸ hm
  | cons hd tl ih =>
    obtain ⟨k, a⟩ := hd
    cases hf : f a with
    | error e => simp [tryInitGo, hf] at h
    | ok c =>
      simp only [tryInitGo, hf] at h
      exact ih _ (coherent_hmInsert hm hf) h

theorem coherent_tryReinitAll [DecidableEq Key] {f : Args → Except Error Comp}
    (m : CMap Key Args Comp) (hm : Coherent f m) : Coherent f (tryReinitAll f m).1 := by
  induction m with
  | nil => intro p hp; cases hp
  | cons hd tl ih =>
    obtain ⟨k, wa⟩ := hd
    have hm' : Coherent f tl := fun p hp => hm p (List.mem_cons_of_mem _ hp)
    cases hf : f wa.args with
    | ok c =>
      intro p hp
      simp only [tryReinitAll, hf, List.mem_cons] at hp
      rcases hp with h1 | h1
      · rw [h1]; exact hf
      · exact ih hm' p h1
    | error e =>
      intro p hp
      simp only [tryReinitAll, hf, List.mem_cons] at hp
      rcases hp with h1 | h1
      · rw [h1]; exact hm _ (List.mem_cons_self _ _)
      · exact ih hm' p h1

theorem coherent_tryReinit [DecidableEq Key] {f : Args → Except Error Comp} (ks : List Key)
    (m : CMap Key Args Comp) (hm : Coherent f m) : Coherent f (tryReinit f ks m).1 := by
  induction ks generalizing m with
  | nil => exact hm
  | cons k ks ih =>
    cases h : hmGet m k with
    | none => simp only [tryReinit, h]; exact ih m hm
    | some wa =>
      cases hf : f wa.args with
      | error e => simp only [tryReinit, h, hf]; exact ih m hm
      | ok c =>
        simp only [tryReinit, h, hf]
        refine ih _ (coherent_hmSetComp k c hm ?_)
        intro wa' hget
        rw [h] at hget
        cases hget
        exact hf

theorem coherent_tryUpdate [DecidableEq Key] {f : Args → Except Error Comp}
    (us : List (Key × Args)) (m : CMap Key Args Comp) (hm : Coherent f m) :
    Coherent f (tryUpdate f us m).1 := by
  induction us generalizing m with
  | nil => exact hm
  | cons hd us ih =>
    obtain ⟨k, a⟩ := hd
    cases hf : f a with
    | error e => simp only [tryUpdate, hf]; exact ih m hm
    | ok c =>
      simp only [tryUpdate, hf]
      exact ih _ (coherent_hmInsert hm hf)

theorem coherentI_foldl_hmInsert [DecidableEq Key] {f : Args → Comp}
    (ps : List (Key × WithArgs Args Comp)) (m : CMap Key Args Comp) (hm : CoherentI f m)
    (hp : ∀ p ∈ ps, p.2.component = f p.2.args) :
    CoherentI f (ps.foldl (fun m' p => (hmInsert m' p.1 p.2).1) m) := by
  induction ps generalizing m with
  | nil => exact hm
  | cons hd tl ih =>
    simp only [List.foldl_cons]
    refine ih _ ?_ (fun p h => hp p (List.mem_cons_of_mem _ h))
    intro p hmem
    rcases hmInsert_mem m hd.1 hd.2 p hmem with h | h
    · exact hm p h
    · rw [h]; exact hp hd (List.mem_cons_self _ _)

theorem coherentI_init [DecidableEq Key] (f : Args → Comp) (es : List (Key × Args)) :
    CoherentI f (init f es) := by
  refine coherentI_foldl_hmInsert _ [] (fun p hp => by cases hp) ?_
  intro p hp
  simp only [List.mem_map] at hp
  obtain ⟨q, _, rfl⟩ := hp
  rfl

theorem coherentI_hmSetComp [DecidableEq Key] {f : Args → Comp} {m : CMap Key Args Comp}
    (k : Key) (c : Comp) (hm : CoherentI f m)
    (hc : ∀ wa, hmGet m k = some wa → c = f wa.args) : CoherentI f (hmSetComp m k c) := by
  intro p hp
  rcases hmSetComp_mem m k c p hp with h | ⟨wa, hget, hpe⟩
  · exact hm p h
  · rw [hpe]; exact hc wa hget

theorem coherentI_reinitAll [DecidableEq Key] (f : Args → Comp) (m : CMap Key Args Comp) :
    CoherentI f (reinitAll f m).1 := by
  rw [reinitAll_eq]
  intro p hp
  simp only [List.mem_map] at hp
  obtain ⟨q, _, rfl⟩ := hp
  rfl

theorem coherentI_reinit [DecidableEq Key] {f : Args → Comp} (ks : List Key)
    (m : CMap Key Args Comp) (hm : CoherentI f m) : CoherentI f (reinit f ks m).1 := by
  induction ks generalizing m with
  | nil => exact hm
  | cons k ks ih =>
    cases h : hmGet m k with
    | none => simp only [reinit, h]; exact ih m hm
    | some wa =>
      simp only [reinit, h]
      refine ih _ (coherentI_hmSetComp k (f wa.args) hm ?_)
      intro wa' hget
      rw [h] at hget
      cases hget
      rfl

theorem update_fst [DecidableEq Key] (f : Args → Comp) (us : List (Key × Args))
    (m : CMap Key Args Comp) :
    (update f us m).1 =
      (us.map (fun p => (p.1, WithArgs.mk (f p.2) p.2))).foldl
        (fun m' p => (hmInsert m' p.1 p.2).1) m := by
  induction us generalizing m with
  | nil => rfl
  | cons hd us ih => obtain ⟨k, a⟩ := hd; simp [update, ih]

theorem coherentI_update [DecidableEq Key] {f : Args → Comp} (us : List (Key × Args))
    (m : CMap Key Args Comp) (hm : CoherentI f m) : CoherentI f (update f us m).1 := by
  rw [update_fst]
  refine coherentI_foldl_hmInsert _ m hm ?_
  intro p hp
  simp only [List.mem_map] at hp
  obtain ⟨q, _, rfl⟩ := hp
  rfl

theorem coherentK_foldl_hmInsert [DecidableEq Key] {f : Key → Args → Comp}
    (ps : List (Key × WithArgs Args Comp)) (m : CMap Key Args Comp) (hm : CoherentK f m)
    (hp : ∀ p ∈ ps, p.2.component = f p.1 p.2.args) :
    CoherentK f (ps.foldl (fun m' p => (hmInsert m' p.1 p.2).1) m) := by
  induction ps generalizing m with
  | nil => exact hm
  | cons hd tl ih =>
    simp only [List.foldl_cons]
    refine ih _ ?_ (fun p h => hp p (List.mem_cons_of_mem _ h))
    intro p hmem
    rcases hmInsert_mem m hd.1 hd.2 p hmem with h | h
    · exact hm p h
    · rw [h]; exact hp hd (List.mem_cons_self _ _)

theorem coherentK_initAsync [DecidableEq Key] (f : Key → Args → Comp)
    (es : List (Key × Args)) : CoherentK f (initAsync f es) := by
  refine coherentK_foldl_hmInsert _ [] (fun p hp => by cases hp) ?_
  intro p hp
  simp only [List.mem_map] at hp
  obtain ⟨q, _, rfl⟩ := hp
  rfl

theorem coherentK_reinitAllAsync [DecidableEq Key] (f : Key → Args → Comp)
    (m : CMap Key Args Comp) : CoherentK f (reinitAllAsync f m).1 := by
  rw [reinitAllAsync_eq]
  intro p hp
  simp only [List.mem_map] at hp
  obtain ⟨q, _, rfl⟩ := hp
  rfl

theorem coherentK_reinitAsyncApply [DecidableEq Key] {f : Key → Args → Comp}
    (rs : List (Keyed Key (Option Comp))) (m : CMap Key Args Comp) (hm : CoherentK f m)
    (hrs : ∀ r ∈ rs, ∀ n, r.value = some n →
      ∀ wa, hmGet m r.key = some wa → n = f r.key wa.args) :
    CoherentK f (reinitAsyncApply rs m).1 := by
  induction rs generalizing m with
  | nil => exact hm
  | cons hd tl ih =>
    obtain ⟨k, next⟩ := hd
    cases next with
    | none =>
      simp only [reinitAsyncApply]
      exact ih m hm (fun r hr => hrs r (List.mem_cons_of_mem _ hr))
    | some n =>
      cases hget : hmGet m k with
      | none =>
        simp only [reinitAsyncApply, hget]
        exact ih m hm (fun r hr => hrs r (List.mem_cons_of_mem _ hr))
      | some wa =>
        simp only [reinitAsyncApply, hget]
        have hn : n = f k wa.args :=
          hrs (Keyed.mk k (some n)) (List.mem_cons_self _ _) n rfl wa hget
        refine ih _ ?_ ?_
        · intro p hp
          rcases hmSetComp_mem m k n p hp with h | ⟨wa', hget', hpe⟩
          · exact hm p h
          · rw [hget] at hget'
            cases hget'
            rw [hpe]
            exact hn
        · intro r hr n' hn' wa'' hget''
          rw [hmGet_hmSetComp] at hget''
          by_cases hrk : r.key = k
          · rw [if_pos hrk, hget] at hget''
            simp only [Option.map] at hget''
            cases hget''
            have := hrs r (List.mem_cons_of_mem _ hr) n' hn' wa (by rw [hrk]; exact hget)
            simpa using this
          · rw [if_neg hrk] at hget''
            exact hrs r (List.mem_cons_of_mem _ hr) n' hn' wa'' hget''

theorem coherentK_reinitAsync [DecidableEq Key] {f : Key → Args → Comp} (ks : List Key)
    (m : CMap Key Args Comp) (hm : CoherentK f m) : CoherentK f (reinitAsync f ks m).1 := by
  refine coherentK_reinitAsyncApply _ m hm ?_
  intro r hr n hn wa hget
  simp only [List.mem_map] at hr
  obtain ⟨k, _, rfl⟩ := hr
  have hval : (hmGet m k).map (fun wa => f k wa.args) = some n := hn
  rw [hget] at hval
  simp at hval
  exact hval.symm

theorem updateAsyncApply_fst [DecidableEq Key] (ps : List (Key × WithArgs Args Comp))
    (m : CMap Key Args Comp) :
    (updateAsyncApply ps m).1 =
      ps.foldl (fun m' p => (hmInsert m' p.1 p.2).1) m := by
  induction ps generalizing m with
  | nil => rfl
  | cons hd tl ih => obtain ⟨k, wa⟩ := hd; simp [updateAsyncApply, ih]

theorem coherentK_updateAsync [DecidableEq Key] {f : Key → Args → Comp}
    (us : List (Key × Args)) (m : CMap Key Args Comp) (hm : CoherentK f m) :
    CoherentK f (updateAsync f us m).1 := by
  rw [updateAsync, updateAsyncApply_fst]
  refine coherentK_foldl_hmInsert _ m hm ?_
  intro p hp
  simp only [List.mem_map] at hp
  obtain ⟨q, _, rfl⟩ := hp
  rfl

/-! ### Lifecycle step relations: one mutating registry call per step -/

/-- A single fallible mutating call on the registry (sync or async). -/
inductive TryStep [DecidableEq Key] (f : Args → Except Error Comp) :
    CMap Key Args Comp → CMap Key Args Comp → Prop where
  | bulk (m) : TryStep f m (tryReinitAll f m).1
  | targeted (ks m) : TryStep f m (tryReinit f ks m).1
  | upd (us m) : TryStep f m (tryUpdate f us m).1
  | bulkAsync (m) : TryStep f m (tryReinitAllAsync f m).1
  | targetedAsync (ks m) : TryStep f m (tryReinitAsync f ks m).1
  | updAsync (us m) : TryStep f m (tryUpdateAsync f us m).1

/-- A single infallible synchronous mutating call on the registry. -/
inductive StepI [DecidableEq Key] (f : Args → Comp) :
    CMap Key Args Comp → CMap Key Args Comp → Prop where
  | bulk (m) : StepI f m (reinitAll f m).1
  | targeted (ks m) : StepI f m (reinit f ks m).1
  | upd (us m) : StepI f m (update f us m).1

/-- A single infallible asynchronous mutating call on the registry. -/
inductive StepK [DecidableEq Key] (f : Key → Args → Comp) :
    CMap Key Args Comp → CMap Key Args Comp → Prop where
  | bulk (m) : StepK f m (reinitAllAsync f m).1
  | targeted (ks m) : StepK f m (reinitAsync f ks m).1
  | upd (us m) : StepK f m (updateAsync f us m).1

theorem coherent_tryStep [DecidableEq Key] {f : Args → Except Error Comp}
    {m m' : CMap Key Args Comp} (hm : Coherent f m) (h : TryStep f m m') :
    Coherent f m' := by
  cases h with
  | bulk m => exact coherent_tryReinitAll m hm
  | targeted ks m => exact coherent_tryReinit ks m hm
  | upd us m => exact coherent_tryUpdate us m hm
  | bulkAsync m => rw [tryReinitAllAsync_eq]; exact coherent_tryReinitAll m hm
  | targetedAsync ks m => rw [tryReinitAsync_eq_tryReinit]; exact coherent_tryReinit ks m hm
  | updAsync us m => rw [tryUpdateAsync_eq_tryUpdate]; exact coherent_tryUpdate us m hm

theorem coherent_reachable [DecidableEq Key] {f : Args → Except Error Comp}
    {m₀ m : CMap Key Args Comp} (h₀ : Coherent f m₀)
    (h : Relation.ReflTransGen (TryStep f) m₀ m) : Coherent f m := by
  induction h with
  | refl => exact h₀
  | tail _ hstep ih => exact coherent_tryStep ih hstep

theorem coherentI_reachable [DecidableEq Key] {f : Args → Comp}
    {m₀ m : CMap Key Args Comp} (h₀ : CoherentI f m₀)
    (h : Relation.ReflTransGen (StepI f) m₀ m) : CoherentI f m := by
  induction h with
  | refl => exact h₀
  | tail _ hstep ih =>
    cases hstep with
    | bulk => exact coherentI_reinitAll f _
    | targeted ks => exact coherentI_reinit ks _ ih
    | upd us => exact coherentI_update us _ ih

theorem coherentK_reachable [DecidableEq Key] {f : Key → Args → Comp}
    {m₀ m : CMap Key Args Comp} (h₀ : CoherentK f m₀)
    (h : Relation.ReflTransGen (StepK f) m₀ m) : CoherentK f m := by
  induction h with
  | refl => exact h₀
  | tail _ hstep ih =>
    cases hstep with
    | bulk => exact coherentK_reinitAllAsync f _
    | targeted ks => exact coherentK_reinitAsync ks _ ih
    | upd us => exact coherentK_updateAsync us _ ih

/-- Key-aware variant of `lastVal_map`. -/
theorem lastVal_mapK [DecidableEq Key] (es : List (Key × Args))
    (h : Key → Args → WithArgs Args Comp) (k : Key) :
    lastVal (es.map (fun p => (p.1, h p.1 p.2))) k = (lastArg es k).map (h k) := by
  induction es with
  | nil => rfl
  | cons hd tl ih =>
    obtain ⟨k₀, a⟩ := hd
    simp only [List.map_cons, lastVal, lastArg, ih]
    cases lastArg tl k with
    | some a' => rfl
    | none =>
      by_cases hk : k₀ = k
      · subst hk; simp
      · simp [hk]

/-! ## The claims -/

/-- C1: per-key isolation of fallible re-creation.  For every stored entry of
the registry, `try_reinit_all` (and `try_reinit_all_async`, which computes the
same outputs) leaves that entry's stored `(args, component)` pair unchanged
and reports the error when the factory fails on the entry's stored args, and
stores the fresh component while reporting the previous one wrapped in `.ok`
when it succeeds.  Each output entry is determined by that input entry alone,
so a failure on one key changes nothing for any other key. -/
theorem try_reinit_all_per_key_isolation [DecidableEq Key]
    (f : Args → Except Error Comp) (m : CMap Key Args Comp) (i : Nat) (k : Key)
    (wa : WithArgs Args Comp) (hi : m[i]? = some (k, wa)) :
    (tryReinitAll f m).1.length = m.length ∧
    (tryReinitAll f m).2.length = m.length ∧
    (∀ e, f wa.args = .error e →
        (tryReinitAll f m).1[i]? = some (k, wa) ∧
        (tryReinitAll f m).2[i]? = some (Keyed.mk k (.error e))) ∧
    (∀ c, f wa.args = .ok c →
        (tryReinitAll f m).1[i]? = some (k, WithArgs.mk c wa.args) ∧
        (tryReinitAll f m).2[i]? = some (Keyed.mk k (.ok wa.component))) ∧
    tryReinitAllAsync f m = tryReinitAll f m := by
  have h1 := tryReinitAll_eq f m
  refine ⟨by rw [h1]; simp, by rw [h1]; simp, ?_, ?_, tryReinitAllAsync_eq f m⟩
  · intro e he
    rw [h1]
    constructor
    · rw [List.getElem?_map, hi]
      simp [he]
    · rw [List.getElem?_map, hi]
      simp [he, exceptMap_error]
  · intro c hc
    rw [h1]
    constructor
    · rw [List.getElem?_map, hi]
      simp [hc]
    · rw [List.getElem?_map, hi]
      simp [hc, exceptMap_ok]

/-- C1, witnessed at a concrete registry: with factory failing on args `0`
with error `9` and succeeding elsewhere, the failing entry under key `0` is
left byte-for-byte unchanged while the entry under key `1` is replaced. -/
theorem try_reinit_all_per_key_isolation_witness :
    (tryReinitAll (fun a => if a = 0 then (Except.error 9 : Except Nat Nat) else .ok (a + 1))
        [((0 : Nat), WithArgs.mk 5 0), (1, WithArgs.mk 6 3)]).1[0]? =
      some (0, WithArgs.mk 5 0) ∧
    (tryReinitAll (fun a => if a = 0 then (Except.error 9 : Except Nat Nat) else .ok (a + 1))
        [((0 : Nat), WithArgs.mk 5 0), (1, WithArgs.mk 6 3)]).2[0]? =
      some (Keyed.mk 0 (.error 9)) := by
  have h := try_reinit_all_per_key_isolation
      (fun a => if a = 0 then (Except.error 9 : Except Nat Nat) else .ok (a + 1))
      [((0 : Nat), WithArgs.mk 5 0), (1, WithArgs.mk 6 3)] 0 0 (WithArgs.mk 5 0) rfl
  exact h.2.2.1 9 rfl

/-- C2: construction atomicity with first-error selection.  `try_init` returns
an error exactly when some factory invocation fails, the returned error is the
first error in input order, a fully populated registry (the same map the
infallible construction builds from the pointwise successes) is returned when
every invocation succeeds, and `try_init_async` returns exactly the same
result. -/
theorem try_init_construction_atomicity [DecidableEq Key]
    (f : Args → Except Error Comp) (g : Args → Comp) (es : List (Key × Args)) :
    (∀ e, tryInit f es = .error e ↔ firstInitError f es = some e) ∧
    ((∀ p ∈ es, f p.2 = .ok (g p.2)) → tryInit f es = .ok (init g es)) ∧
    (firstInitError f es = none ↔ ∃ m₁, tryInit f es = .ok m₁) ∧
    tryInitAsync f es = tryInit f es := by
  refine ⟨fun e => tryInitGo_error_iff f es [] e, ?_, ?_, tryInitAsync_eq_tryInit f es⟩
  · intro h
    rw [tryInit, tryInitGo_ok f g es [] h, init, hmCollect]
  · cases h : tryInit f es with
    | ok m₁ =>
      have : firstInitError f es = none := by
        cases hfe : firstInitError f es with
        | none => rfl
        | some e =>
          rw [← tryInitGo_error_iff f es [] e, ← tryInit] at hfe
          rw [h] at hfe
          cases hfe
      simp [this, h]
    | error e =>
      have he : firstInitError f es = some e := (tryInitGo_error_iff f es [] e).mp h
      simp [he]

/-- C3: fallible update atomicity.  Processing a `(key, args)` pair with
`try_update`: on factory failure nothing is inserted — the rest of the batch
continues from the map exactly as it was — and the error is reported for that
key; on success the new pair is inserted under the key (other keys untouched,
size grown by one exactly when the key was new) and the result reports the
previously stored pair wrapped in `.ok`, or `none` when the key was new.
`try_update_async` computes exactly the same result. -/
theorem try_update_atomicity [DecidableEq Key] (f : Args → Except Error Comp)
    (k : Key) (a : Args) (us : List (Key × Args)) (m : CMap Key Args Comp) :
    (∀ e, f a = .error e →
      tryUpdate f ((k, a) :: us) m =
        ((tryUpdate f us m).1, Keyed.mk k (some (.error e)) :: (tryUpdate f us m).2)) ∧
    (∀ c, f a = .ok c →
      tryUpdate f ((k, a) :: us) m =
        ((tryUpdate f us (hmInsert m k (WithArgs.mk c a)).1).1,
         Keyed.mk k ((hmGet m k).map Except.ok) ::
           (tryUpdate f us (hmInsert m k (WithArgs.mk c a)).1).2) ∧
      hmGet (hmInsert m k (WithArgs.mk c a)).1 k = some (WithArgs.mk c a) ∧
      (∀ k', ¬k' = k → hmGet (hmInsert m k (WithArgs.mk c a)).1 k' = hmGet m k') ∧
      ((hmGet m k).isSome → (hmInsert m k (WithArgs.mk c a)).1.length = m.length) ∧
      (hmGet m k = none → (hmInsert m k (WithArgs.mk c a)).1.length = m.length + 1)) ∧
    tryUpdateAsync f ((k, a) :: us) m = tryUpdate f ((k, a) :: us) m := by
  refine ⟨?_, ?_, tryUpdateAsync_eq_tryUpdate f ((k, a) :: us) m⟩
  · intro e he
    simp [tryUpdate, he]
  · intro c hc
    refine ⟨?_, ?_, ?_, ?_, ?_⟩
    · simp [tryUpdate, hc, hmInsert_snd]
    · rw [hmGet_hmInsert]; simp
    · intro k' hk'
      rw [hmGet_hmInsert, if_neg hk']
    · intro hsome
      rw [hmInsert_length, if_pos hsome]
    · intro hnone
      rw [hmInsert_length, hnone]
      rfl

/-- C4: pair-coherence invariant.  Under a pure factory, any registry built by
fallible construction is coherent (every stored component is the successful
materialization of its stored args), coherence is preserved by every sequence
of fallible mutating calls (sync and async), the infallible variants establish
and preserve the corresponding coherence for their factories, and a failed
re-creation attempt leaves both fields of the stored pair unchanged. -/
theorem pair_coherence_invariant [DecidableEq Key] (f : Args → Except Error Comp)
    (g : Args → Comp) (gk : Key → Args → Comp) (es : List (Key × Args))
    (ks : List Key) (m₀ m : CMap Key Args Comp) :
    (∀ m₁, tryInit f es = .ok m₁ → Coherent f m₁) ∧
    (Coherent f m₀ → Relation.ReflTransGen (TryStep f) m₀ m → Coherent f m) ∧
    (CoherentI g m₀ → Relation.ReflTransGen (StepI g) m₀ m → CoherentI g m) ∧
    (CoherentK gk m₀ → Relation.ReflTransGen (StepK gk) m₀ m → CoherentK gk m) ∧
    CoherentI g (init g es) ∧
    CoherentK gk (initAsync gk es) ∧
    (∀ (k : Key) (wa : WithArgs Args Comp) (e : Error),
      hmGet m k = some wa → f wa.args = .error e →
      hmGet (tryReinit f ks m).1 k = some wa ∧
      hmGet (tryReinitAsync f ks m).1 k = some wa) ∧
    (∀ (i : Nat) (k : Key) (wa : WithArgs Args Comp) (e : Error),
      m[i]? = some (k, wa) → f wa.args = .error e →
      (tryReinitAll f m).1[i]? = some (k, wa)) := by
  refine ⟨fun m₁ h => coherent_tryInitGo es [] m₁ (fun p hp => by cases hp) h,
    coherent_reachable, coherentI_reachable, coherentK_reachable,
    coherentI_init g es, coherentK_initAsync gk es, ?_, ?_⟩
  · intro k wa e hget herr
    exact ⟨tryReinit_error_unchanged f ks m k wa e hget herr,
      tryReinitAsync_error_unchanged f ks m k wa e hget herr⟩
  · intro i k wa e hi herr
    rw [tryReinitAll_eq]
    rw [List.getElem?_map, hi]
    simp [herr]

/-- C5: construction postcondition.  `init` (and the key-aware `init_async`)
invokes the factory exactly once per input pair, in input order and on that
pair's args (the invocation logs say so), and the resulting map holds, for
each key, exactly the pair built from the last occurrence of that key in the
input (last-write-wins); a key is absent from the map exactly when it occurs
in no input pair. -/
theorem init_postcondition [DecidableEq Key] (g : Args → Comp)
    (gk : Key → Args → Comp) (es : List (Key × Args)) (k : Key) :
    (initL g es).2 = es.map (fun p => p.2) ∧
    (initL g es).2.length = es.length ∧
    (initAsyncL gk es).2 = es ∧
    init g es = hmCollect (initL g es).1 ∧
    initAsync gk es = hmCollect (initAsyncL gk es).1 ∧
    hmGet (init g es) k = (lastArg es k).map (fun a => WithArgs.mk (g a) a) ∧
    hmGet (initAsync gk es) k = (lastArg es k).map (fun a => WithArgs.mk (gk k a) a) ∧
    (hmGet (init g es) k = none ↔ k ∉ es.map (fun p => p.1)) := by
  have h6 : hmGet (init g es) k = (lastArg es k).map (fun a => WithArgs.mk (g a) a) := by
    rw [init, hmGet_hmCollect]
    exact lastVal_map es (fun a => WithArgs.mk (g a) a) k
  have h7 : hmGet (initAsync gk es) k =
      (lastArg es k).map (fun a => WithArgs.mk (gk k a) a) := by
    rw [initAsync, hmGet_hmCollect]
    exact lastVal_mapK es (fun k' a => WithArgs.mk (gk k' a) a) k
  refine ⟨initL_log g es, by rw [initL_log]; simp, initAsyncL_log gk es,
    init_eq_initL g es, initAsync_eq_initAsyncL gk es, h6, h7, ?_⟩
  rw [h6, ← lastArg_eq_none_iff]
  cases lastArg es k <;> simp

/-- C6: infallible update previous-value contract.  Processing a `(key, args)`
pair with `update` (or the key-aware `update_async`) builds the new component
from the supplied args, unconditionally inserts the pair, and reports the full
previously stored `(args, component)` pair — or `none` when the key was new;
other keys are untouched and the map size grows by one exactly when the key
was new. -/
theorem update_previous_value_contract [DecidableEq Key] (g : Args → Comp)
    (gk : Key → Args → Comp) (k : Key) (a : Args) (us : List (Key × Args))
    (m : CMap Key Args Comp) :
    update g ((k, a) :: us) m =
      ((update g us (hmInsert m k (WithArgs.mk (g a) a)).1).1,
       Keyed.mk k (hmGet m k) ::
         (update g us (hmInsert m k (WithArgs.mk (g a) a)).1).2) ∧
    updateAsync gk ((k, a) :: us) m =
      ((updateAsync gk us (hmInsert m k (WithArgs.mk (gk k a) a)).1).1,
       Keyed.mk k (hmGet m k) ::
         (updateAsync gk us (hmInsert m k (WithArgs.mk (gk k a) a)).1).2) ∧
    hmGet (hmInsert m k (WithArgs.mk (g a) a)).1 k = some (WithArgs.mk (g a) a) ∧
    (∀ k', ¬k' = k → hmGet (hmInsert m k (WithArgs.mk (g a) a)).1 k' = hmGet m k') ∧
    ((hmGet m k).isSome → (hmInsert m k (WithArgs.mk (g a) a)).1.length = m.length) ∧
    (hmGet m k = none →
      (hmInsert m k (WithArgs.mk (g a) a)).1.length = m.length + 1) := by
  refine ⟨by simp [update, hmInsert_snd], updateAsync_cons gk k a us m, ?_, ?_, ?_, ?_⟩
  · rw [hmGet_hmInsert]; simp
  · intro k' hk'
    rw [hmGet_hmInsert, if_neg hk']
  · intro hsome
    rw [hmInsert_length, if_pos hsome]
  · intro hnone
    rw [hmInsert_length, hnone]
    rfl

/-- C7: infallible bulk re-creation postcondition.  `reinit_all` (and the
key-aware `reinit_all_async`) re-invokes the factory exactly once per stored
entry on that entry's stored args (the invocation logs say so), replaces every
stored component with the newly produced one while keeping the stored args,
and returns exactly one result per stored entry pairing the entry's key with
the component stored before the call. -/
theorem reinit_all_postcondition (g : Args → Comp) (gk : Key → Args → Comp)
    (m : CMap Key Args Comp) :
    reinitAll g m = (m.map (fun p => (p.1, WithArgs.mk (g p.2.args) p.2.args)),
                     m.map (fun p => Keyed.mk p.1 p.2.component)) ∧
    reinitAllAsync gk m =
      (m.map (fun p => (p.1, WithArgs.mk (gk p.1 p.2.args) p.2.args)),
       m.map (fun p => Keyed.mk p.1 p.2.component)) ∧
    (reinitAllL g m).1 = reinitAll g m ∧
    (reinitAllL g m).2 = m.map (fun p => p.2.args) ∧
    (reinitAllAsyncL gk m).1 = reinitAllAsync gk m ∧
    (reinitAllAsyncL gk m).2 = skeleton m ∧
    (reinitAll g m).2.length = m.length ∧
    (reinitAllAsync gk m).2.length = m.length :=
  ⟨reinitAll_eq g m, reinitAllAsync_eq gk m, reinitAllL_fst g m, reinitAllL_log g m,
   reinitAllAsyncL_fst gk m, reinitAllAsyncL_log gk m,
   by rw [reinitAll_eq]; simp, by rw [reinitAllAsync_eq]; simp⟩

/-- C8: absent-key handling in targeted re-creation.  An input key absent from
the registry contributes no factory invocation (the invocation logs are
unchanged), no map mutation, and exactly one result carrying the explicit
absent marker `none` — for `reinit` as well as for `try_reinit_async`, whose
`Option (Except Error Comp)` values keep absent (`none`) distinct from failed
(`some (.error e)`) and succeeded (`some (.ok c)`).  A present key behaves as
single-key re-creation: `reinit` replaces just its component with the factory
value of its stored args and reports the previous component, and on a single
key `try_reinit_async` agrees with the synchronous `try_reinit`. -/
theorem reinit_absent_key_handling [DecidableEq Key] (g : Args → Comp)
    (f : Args → Except Error Comp) (k : Key) (ks : List Key)
    (m : CMap Key Args Comp) :
    (hmGet m k = none →
      reinit g (k :: ks) m =
        ((reinit g ks m).1, Keyed.mk k none :: (reinit g ks m).2) ∧
      (reinitL g (k :: ks) m).2 = (reinitL g ks m).2 ∧
      tryReinitAsync f (k :: ks) m =
        ((tryReinitAsync f ks m).1, Keyed.mk k none :: (tryReinitAsync f ks m).2) ∧
      (tryReinitAsyncL f (k :: ks) m).2 = (tryReinitAsyncL f ks m).2) ∧
    (∀ wa, hmGet m k = some wa →
      reinit g (k :: ks) m =
        ((reinit g ks (hmSetComp m k (g wa.args))).1,
         Keyed.mk k (some wa.component) ::
           (reinit g ks (hmSetComp m k (g wa.args))).2)) ∧
    tryReinitAsync f [k] m = tryReinit f [k] m := by
  refine ⟨?_, ?_, tryReinitAsync_eq_tryReinit f [k] m⟩
  · intro h
    refine ⟨by simp [reinit, h], by simp [reinitL, h], ?_, ?_⟩
    · simp [tryReinitAsync, tryReinitAsyncApply, h]
    · simp [tryReinitAsyncL, tryReinitAsyncPhase1L, h]
  · intro wa h
    simp [reinit, h]

/-- C9: asynchronous reporting order.  For every input sequence, each of
`reinit_async`, `try_reinit_async`, `update_async` and `try_update_async`
returns exactly one result per input element, and the keys of the result
sequence equal the input keys in input order — `join_all` yields the batch's
results in input order, independent of completion order, and the map is
reconciled only in that second pass. -/
theorem async_reporting_order [DecidableEq Key] (gk : Key → Args → Comp)
    (f : Args → Except Error Comp) (ks : List Key) (us : List (Key × Args))
    (m : CMap Key Args Comp) :
    (reinitAsync gk ks m).2.map (fun r => r.key) = ks ∧
    (reinitAsync gk ks m).2.length = ks.length ∧
    (tryReinitAsync f ks m).2.map (fun r => r.key) = ks ∧
    (tryReinitAsync f ks m).2.length = ks.length ∧
    (updateAsync gk us m).2.map (fun r => r.key) = us.map (fun p => p.1) ∧
    (updateAsync gk us m).2.length = us.length ∧
    (tryUpdateAsync f us m).2.map (fun r => r.key) = us.map (fun p => p.1) ∧
    (tryUpdateAsync f us m).2.length = us.length := by
  have hmk : ∀ {V : Type} (l : List Key) (v : Key → V),
      (l.map (fun k => Keyed.mk k (v k))).map (fun r => r.key) = l := by
    intro V l v
    induction l with
    | nil => rfl
    | cons k l ih => simp [ih]
  have h1 : (reinitAsync gk ks m).2.map (fun r => r.key) = ks := by
    rw [reinitAsync, reinitAsyncApply_keys]
    exact hmk ks (fun k => (hmGet m k).map (fun wa => gk k wa.args))
  have h3 : (tryReinitAsync f ks m).2.map (fun r => r.key) = ks := by
    rw [tryReinitAsync, tryReinitAsyncApply_keys]
    exact hmk ks (fun k => (hmGet m k).map (fun wa => f wa.args))
  have h5 : (updateAsync gk us m).2.map (fun r => r.key) = us.map (fun p => p.1) := by
    rw [updateAsync, updateAsyncApply_keys]
    simp [List.map_map, Function.comp]
  have h7 : (tryUpdateAsync f us m).2.map (fun r => r.key) = us.map (fun p => p.1) := by
    rw [tryUpdateAsync, tryUpdateAsyncApply_keys]
    simp [List.map_map, Function.comp]
  refine ⟨h1, ?_, h3, ?_, h5, ?_, h7, ?_⟩
  · simpa using congrArg List.length h1
  · simpa using congrArg List.length h3
  · simpa using congrArg List.length h5
  · simpa using congrArg List.length h7

/-- C10: frame property of re-creation.  Every reinit variant preserves the
map's skeleton — its key sequence and every entry's stored args, hence the key
set and the size; keys not in the input of a targeted variant keep their whole
entry, and an entry whose factory invocation fails is left entirely unchanged,
so the only field any variant modifies is the component of entries whose
re-creation succeeded. -/
theorem reinit_frame_property [DecidableEq Key] (g : Args → Comp)
    (gk : Key → Args → Comp) (f : Args → Except Error Comp) (ks : List Key)
    (m : CMap Key Args Comp) :
    skeleton (reinitAll g m).1 = skeleton m ∧
    skeleton (tryReinitAll f m).1 = skeleton m ∧
    skeleton (reinit g ks m).1 = skeleton m ∧
    skeleton (tryReinit f ks m).1 = skeleton m ∧
    skeleton (reinitAllAsync gk m).1 = skeleton m ∧
    skeleton (tryReinitAllAsync f m).1 = skeleton m ∧
    skeleton (reinitAsync gk ks m).1 = skeleton m ∧
    skeleton (tryReinitAsync f ks m).1 = skeleton m ∧
    (reinitAll g m).1.length = m.length ∧
    (tryReinit f ks m).1.length = m.length ∧
    (∀ k', k' ∉ ks →
      hmGet (reinit g ks m).1 k' = hmGet m k' ∧
      hmGet (tryReinit f ks m).1 k' = hmGet m k' ∧
      hmGet (reinitAsync gk ks m).1 k' = hmGet m k' ∧
      hmGet (tryReinitAsync f ks m).1 k' = hmGet m k') ∧
    (∀ (k : Key) (wa : WithArgs Args Comp) (e : Error),
      hmGet m k = some wa → f wa.args = .error e →
      hmGet (tryReinit f ks m).1 k = some wa) := by
  refine ⟨reinitAll_skeleton g m, tryReinitAll_skeleton f m, reinit_skeleton g ks m,
    tryReinit_skeleton f ks m, reinitAllAsync_skeleton gk m,
    tryReinitAllAsync_skeleton f m, reinitAsync_skeleton gk ks m,
    tryReinitAsync_skeleton f ks m, ?_, ?_, ?_, ?_⟩
  · have := congrArg List.length (reinitAll_skeleton g m)
    simpa [skeleton] using this
  · have := congrArg List.length (tryReinit_skeleton f ks m)
    simpa [skeleton] using this
  · intro k' hk'
    exact ⟨reinit_notMem g ks k' m hk', tryReinit_notMem f ks k' m hk',
      reinitAsync_notMem gk ks k' m hk', tryReinitAsync_notMem f ks k' m hk'⟩
  · intro k wa e hget herr
    exact tryReinit_error_unchanged f ks m k wa e hget herr

/-- The specification's end-to-end example, evaluated on the embedding:
initializing with `x ↦ 1, y ↦ 2` and factory `a * 2` stores `x ↦ 2, y ↦ 4`;
targeted re-creation of `x` under factory `a * 3` reports the previous `2` and
stores `3` while leaving `y` alone; updating `z` with args `5` reports no
previous value and stores `15`. -/
theorem spec_end_to_end_example :
    init (fun a => a * 2) [("x", 1), ("y", 2)] =
      [("x", WithArgs.mk 2 1), ("y", WithArgs.mk 4 2)] ∧
    reinit (fun a => a * 3) ["x"] [("x", WithArgs.mk 2 1), ("y", WithArgs.mk 4 2)] =
      ([("x", WithArgs.mk 3 1), ("y", WithArgs.mk 4 2)], [Keyed.mk "x" (some 2)]) ∧
    update (fun a => a * 3) [("z", 5)] [("x", WithArgs.mk 3 1), ("y", WithArgs.mk 4 2)] =
      ([("x", WithArgs.mk 3 1), ("y", WithArgs.mk 4 2), ("z", WithArgs.mk 15 5)],
       [Keyed.mk "z" none]) := by
  refine ⟨?_, ?_, ?_⟩ <;> rfl

end ComponentMap
